import Mathlib

/-!
# Verification of the `opt.LinIpm` interior-point LP solver (gosl)

Shallow embedding of `src/opt/linipm.go` (package `opt`, type `LinIpm`).
Machine floating point (`float64`) is idealised as exact rational
arithmetic `ℚ`; Go division-by-zero produces NaN/Inf while `ℚ` division
by zero yields 0 — every statement below that touches a division is
checked to be insensitive to this difference at the inputs used.
Go slices become `List ℚ`.  The external collaborators that the spec
declares out of scope (sparse storage, UMFPACK, the dense SPD solver)
enter as explicit dense primitives or as oracle parameters:

* `matVec` / `matTrVec` model `la.SpMatVecMul` / `la.SpMatTrVecMul`
  (the numeric contract of the opaque sparse primitives);
* the results `d`, `L0` of `la.SPDsolve2` (the dense normal-equations
  solves producing the starting point) are passed in as vectors;
* `la.LinSol.SolveR` (`Mdy := J⁻¹·R`) is an oracle
  `ℕ → List ℚ → List ℚ` taking the iteration counter and the residual.
-/

namespace LinIpm

/-- Dot product, the translation of the accumulation loops
`acc += u[i] * v[i]` (iteration order is immaterial in exact arithmetic). -/
def dotQ : List ℚ → List ℚ → ℚ
  | x :: xs, y :: ys => x * y + dotQ xs ys
  | _, _ => 0

/-- Sum of the entries, the translation of `acc += v[i]`. -/
def sumQ : List ℚ → ℚ
  | [] => 0
  | x :: xs => x + sumQ xs

/-- Dense model of `la.SpMatVecMul` (`y := A·x`), `A` given by rows. -/
def matVec (A : List (List ℚ)) (v : List ℚ) : List ℚ :=
  A.map (fun row => dotQ row v)

/-- Column `j` of a row-major dense matrix (absent entries read as 0). -/
def colQ (A : List (List ℚ)) (j : ℕ) : List ℚ :=
  A.map (fun row => row.getD j 0)

/-- Dense model of `la.SpMatTrVecMul` (`y := Aᵀ·v`); `n` is the column
count of `A` (the length `Nx` of the produced vector). -/
def matTrVec (A : List (List ℚ)) (v : List ℚ) (n : ℕ) : List ℚ :=
  (List.range n).map (fun j => dotQ (colQ A j) v)

/-- Pointwise zip of three lists. -/
def zip3 (a b c : List ℚ) : List (ℚ × ℚ × ℚ) :=
  a.zip (b.zip c)

/-- Pointwise zip of four lists. -/
def zip4 (a b c d : List ℚ) : List (ℚ × ℚ × ℚ × ℚ) :=
  a.zip (b.zip (c.zip d))

/-! ## Initialisation (`LinIpm.Init`)

`fun.Params` is a list of named numeric parameters; `p.N` is the name,
`p.V` the `float64` value. -/

/-- One parameter of the configuration bag (`fun.Prm`: name and value). -/
structure Param where
  N : String
  V : ℚ

/-- Go conversion `int(v)` from `float64`: truncation toward zero. -/
def truncQ (q : ℚ) : ℤ :=
  if 0 ≤ q then ⌊q⌋ else ⌈q⌉

/-- One step of the option loop in `Init`:
`switch p.N { case "nmaxit": o.NmaxIt = int(p.V) }`.
Note the `switch` has no `"tol"` case: only `nmaxit` is recognised. -/
def applyParam (acc : ℤ × ℚ) (p : Param) : ℤ × ℚ :=
  if p.N = "nmaxit" then (truncQ p.V, acc.2) else acc

/-- The `NmaxIt`/`Tol` constants produced by `Init`'s option loop,
starting from the defaults `NmaxIt = 50`, `Tol = 1e-8`. -/
def initConsts (prms : List Param) : ℤ × ℚ :=
  prms.foldl applyParam (50, 1 / 100000000)

/-- The configuration part of the solver state set up by `Init`. -/
structure Config where
  NmaxIt : ℤ
  Tol : ℚ
  Nx : ℕ
  Nl : ℕ
  Ny : ℕ
deriving DecidableEq, Repr

/-- Error taxonomy item claimed by the spec for `Init`. -/
inductive ConfigError
  | degenerateDimensions
deriving DecidableEq, Repr

/-- The configuration `Init` computes: constants from the option bag,
`Nx = len(c)`, `Nl = len(b)`, `Ny = 2·Nx + Nl`. -/
def initCfg (b c : List ℚ) (prms : List Param) : Config :=
  { NmaxIt := (initConsts prms).1
    Tol := (initConsts prms).2
    Nx := c.length
    Nl := b.length
    Ny := 2 * c.length + b.length }

/-- Model of `LinIpm.Init`.  The Go method returns nothing and contains
no validation or failure path whatsoever; the `Except` wrapper exists
only so that the spec's claimed `ConfigError` outcome is expressible —
the code always takes the `.ok` branch. -/
def Init (b c : List ℚ) (prms : List Param) : Except ConfigError Config :=
  .ok (initCfg b c prms)

/-- Spec-side helper (named from the spec's words): the value of the
most recently supplied `nmaxit` option, if any. -/
def lastNmaxit : List Param → Option ℚ
  | [] => none
  | p :: rest =>
      match lastNmaxit rest with
      | some v => some v
      | none => if p.N = "nmaxit" then some p.V else none

/-! ## Solver state and the starting-point heuristic (`Solve`, lines 118-149)

In Go, `X`, `L`, `S` are aliased slices of one vector `Y`; the partitions
are disjoint, so they are modelled as three separate lists. -/

/-- The iterate `(X, L, S)`. -/
structure IpmState where
  X : List ℚ
  L : List ℚ
  S : List ℚ
deriving DecidableEq, Repr

/-- Minimum of a vector, seeded from its first entry:
`xmin := v[0]; for i := 1; ...; xmin = min(xmin, v[i])`.
The `[]` case is unreachable in `Solve` (Go would panic on `v[0]`). -/
def vecMin : List ℚ → ℚ
  | [] => 0
  | x :: xs => xs.foldl min x

/-- The combined first-shift/accumulation loop of the heuristic:
`X[i] += δx; S[i] += δs; xdots += X[i]*S[i]; xsum += X[i]; ssum += S[i]`
(the dot product and the sums read the already-shifted entries).
Returns `(X1, S1, xdots, xsum, ssum)`. -/
def shiftLoop (dx ds : ℚ) : List (ℚ × ℚ) → List ℚ × List ℚ × ℚ × ℚ × ℚ
  | [] => ([], [], 0, 0, 0)
  | (x, s) :: rest =>
      let (xs1, ss1, xdots, xsum, ssum) := shiftLoop dx ds rest
      ((x + dx) :: xs1, (s + ds) :: ss1,
        (x + dx) * (s + ds) + xdots, (x + dx) + xsum, (s + ds) + ssum)

/-- The two-stage shift of the starting-point heuristic applied to the
vectors `X = Aᵀ·d` and `S = c − Aᵀ·L` (lines 128-149 of `Solve`). -/
def heuristicShifts (X S : List ℚ) : List ℚ × List ℚ :=
  let dx1 := max (-(3 / 2 : ℚ) * vecMin X) 0
  let ds1 := max (-(3 / 2 : ℚ) * vecMin S) 0
  let (x1, s1, xdots, xsum, ssum) := shiftLoop dx1 ds1 (X.zip S)
  let dx2 := (1 / 2 : ℚ) * xdots / ssum
  let ds2 := (1 / 2 : ℚ) * xdots / xsum
  (x1.map (· + dx2), s1.map (· + ds2))

/-- Spec-side restatement of the heuristic (named from the spec's words,
§4.2 steps 4-5): first shift as a map, then dot product / sums of the
shifted vectors, then the secondary shifts as maps. -/
def heuristicShiftsSpec (X S : List ℚ) : List ℚ × List ℚ :=
  let dx1 := max (-(3 / 2 : ℚ) * vecMin X) 0
  let ds1 := max (-(3 / 2 : ℚ) * vecMin S) 0
  let x1 := X.map (· + dx1)
  let s1 := S.map (· + ds1)
  let dx2 := (1 / 2 : ℚ) * dotQ x1 s1 / sumQ s1
  let ds2 := (1 / 2 : ℚ) * dotQ x1 s1 / sumQ x1
  (x1.map (· + dx2), s1.map (· + ds2))

/-- Model of the starting point of `Solve`: `d` and `L0` are the outputs
of the external dense solves `la.SPDsolve2` (`(A·Aᵀ)·d = b` and
`(A·Aᵀ)·L0 = A·c`); then `X := Aᵀ·d`, `S := c − Aᵀ·L0`, and the
two-stage shift is applied. -/
def startingPoint (A : List (List ℚ)) (c d L0 : List ℚ) : IpmState :=
  let x0 := matTrVec A d c.length
  let s0 := List.zipWith (fun cc t => cc - t) c (matTrVec A L0 c.length)
  let (x1, s1) := heuristicShifts x0 s0
  ⟨x1, L0, s1⟩

/-! ## The ratio test (`calc_min_ratios`, lines 271-292) -/

/-- The accumulator loop of `calc_min_ratios` for one of the two ratios:
the `Option` is the `first*` flag together with the running minimum; a
Go named return is zero-initialised, hence the final value is `0` when
no pair ever qualified. -/
def minRatioAux : List (ℚ × ℚ) → Option ℚ → ℚ
  | [], none => 0
  | [], some r => r
  | (x, m) :: rest, acc =>
      if 0 < m then
        match acc with
        | none => minRatioAux rest (some (x / m))
        | some r => minRatioAux rest (some (min r (x / m)))
      else minRatioAux rest acc

/-- Model of `calc_min_ratios`: `xrmin` over pairs `(X[i], Mdx[i])` with
`Mdx[i] > 0`, `srmin` over pairs `(S[i], Mds[i])` with `Mds[i] > 0`;
each is `0` (the Go zero value) when no index qualifies. -/
def calc_min_ratios (X S mdx mds : List ℚ) : ℚ × ℚ :=
  (minRatioAux (X.zip mdx) none, minRatioAux (S.zip mds) none)

/-! ## One iteration of `Solve` (lines 174-262) -/

/-- The first residual loop (over `i < Nx`):
`Rx[i] += S[i] − C[i]; Rs[i] = X[i]*S[i]; ctx += C[i]*X[i]; μacc += X[i]*S[i]`.
Input tuples are `(rx0[i], S[i], C[i], X[i])` where `rx0 = Aᵀ·L`;
returns `(Rx, Rs, ctx, μacc)`. -/
def rxLoop : List (ℚ × ℚ × ℚ × ℚ) → List ℚ × List ℚ × ℚ × ℚ
  | [] => ([], [], 0, 0)
  | (r, s, cc, x) :: rest =>
      ((r + s - cc) :: (rxLoop rest).1, (x * s) :: (rxLoop rest).2.1,
        cc * x + (rxLoop rest).2.2.1, x * s + (rxLoop rest).2.2.2)

/-- The second residual loop (over `i < Nl`):
`Rl[i] -= B[i]; btl += B[i]*L[i]`.  Input tuples are
`(rl0[i], B[i], L[i])` where `rl0 = A·X`; returns `(Rl, btl)`. -/
def rlLoop : List (ℚ × ℚ × ℚ) → List ℚ × ℚ
  | [] => ([], 0)
  | (r, bb, l) :: rest =>
      ((r - bb) :: (rlLoop rest).1, bb * l + (rlLoop rest).2)

/-- The residual/objective computation at the top of every iteration
(lines 177-190): returns `((Rx, Rl, Rs), ctx, btl, μ)`. -/
def residualStage (A : List (List ℚ)) (b c : List ℚ) (st : IpmState) :
    (List ℚ × List ℚ × List ℚ) × ℚ × ℚ × ℚ :=
  let rx0 := matTrVec A st.L c.length
  let rl0 := matVec A st.X
  let (rx, rs, ctx, macc) := rxLoop (zip4 rx0 st.S c st.X)
  let (rl, btl) := rlLoop (zip3 rl0 b st.L)
  ((rx, rl, rs), ctx, btl, macc / (c.length : ℚ))

/-- The convergence metric `lerr := |ctx − btl| / (1 + |ctx|)` of
line 193, computed at the current iterate. -/
def lerrOf (A : List (List ℚ)) (b c : List ℚ) (st : IpmState) : ℚ :=
  let (_, ctx, btl, _) := residualStage A b c st
  |ctx - btl| / (1 + |ctx|)

/-- The `μaff` accumulation loop (lines 231-234):
`μaff += (X[i] − αpa·Mdx[i]) * (S[i] − αda·Mds[i])`.
Input tuples are `(X[i], Mdx[i], S[i], Mds[i])`. -/
def muAffSum (ap ad : ℚ) : List (ℚ × ℚ × ℚ × ℚ) → ℚ
  | [] => 0
  | (x, dx, s, ds) :: rest => (x - ap * dx) * (s - ad * ds) + muAffSum ap ad rest

/-- The centering parameter of the affine step (lines 227-236):
`σ = (μaff/μ)³` with `αpa = min(1, xrmin)`, `αda = min(1, srmin)` from
the affine ratio test and `μaff` the average of the predicted products. -/
def sigmaOf (X S mdx mds : List ℚ) (mu : ℚ) (nx : ℕ) : ℚ :=
  let ap := min 1 (calc_min_ratios X S mdx mds).1
  let ad := min 1 (calc_min_ratios X S mdx mds).2
  let muaff := muAffSum ap ad (zip4 X mdx S mds) / (nx : ℚ)
  (muaff / mu) ^ (3 : ℕ)

/-- The corrector update of the complementarity residual (lines 239-241):
`Rs[i] += Mdx[i]*Mds[i] − σ·μ`. -/
def correctedRs (rs mdx mds : List ℚ) (sg mu : ℚ) : List ℚ :=
  List.zipWith (fun r p => r + p.1 * p.2 - sg * mu) rs (mdx.zip mds)

/-- The whole corrector residual update between the two linear solves
(lines 227-241): `Rx` and `Rl` are passed through untouched, `Rs`
receives the second-order/centering correction. -/
def correctorStage (rx rl rs X S mdx mds : List ℚ) (mu : ℚ) (nx : ℕ) :
    List ℚ × List ℚ × List ℚ :=
  (rx, rl, correctedRs rs mdx mds (sigmaOf X S mdx mds mu nx) mu)

/-- The final ratio test and state update (lines 249-261):
`αpa = min(1, 0.99·xrmin)`, `αda = min(1, 0.99·srmin)` from the corrected
direction, then `X[i] -= αpa·Mdx[i]`, `S[i] -= αda·Mds[i]`,
`L[i] -= αda·Mdl[i]`. -/
def finalStep (X S L mdx mdl mds : List ℚ) : IpmState :=
  let ap := min 1 ((99 / 100 : ℚ) * (calc_min_ratios X S mdx mds).1)
  let ad := min 1 ((99 / 100 : ℚ) * (calc_min_ratios X S mdx mds).2)
  ⟨List.zipWith (fun x m => x - ap * m) X mdx,
    List.zipWith (fun l m => l - ad * m) L mdl,
    List.zipWith (fun s m => s - ad * m) S mds⟩

/-- One full (non-breaking) iteration of the loop body of `Solve`:
residual, predictor solve (oracle), corrector residual update,
corrected solve (oracle), final ratio test and update.  `it` is the
loop counter handed to the oracle; `Mdy` is partitioned exactly like
`Y` (`Mdx = Mdy[0:Nx]`, `Mdl = Mdy[Nx:Nx+Nl]`, `Mds = Mdy[Nx+Nl:Ny]`). -/
def iterBody (A : List (List ℚ)) (b c : List ℚ)
    (oracle : ℕ → List ℚ → List ℚ) (it : ℕ) (st : IpmState) : IpmState :=
  let nx := c.length
  let nl := b.length
  let ((rx, rl, rs), _, _, mu) := residualStage A b c st
  let mdy1 := oracle it (rx ++ rl ++ rs)
  let mdx1 := mdy1.take nx
  let mds1 := mdy1.drop (nx + nl)
  let (rx2, rl2, rs2) := correctorStage rx rl rs st.X st.S mdx1 mds1 mu nx
  let mdy2 := oracle it (rx2 ++ rl2 ++ rs2)
  finalStep st.X st.S st.L (mdy2.take nx) ((mdy2.drop nx).take nl)
    (mdy2.drop (nx + nl))

/-- The sequence of iterates produced from `st` when the loop counter
starts at `it0` and no break occurs. -/
def iterSeqFrom (A : List (List ℚ)) (b c : List ℚ)
    (oracle : ℕ → List ℚ → List ℚ) (it0 : ℕ) (st : IpmState) : ℕ → IpmState
  | 0 => st
  | k + 1 => iterBody A b c oracle (it0 + k) (iterSeqFrom A b c oracle it0 st k)

/-- The iteration loop of `Solve` (lines 173-262).  Returns
`(k, broke, st)`: `k` full iterations were executed, `broke` records
whether the convergence test fired (line 198), and `st` is the state
the loop stopped at. -/
def loopAux (A : List (List ℚ)) (b c : List ℚ) (tol : ℚ)
    (oracle : ℕ → List ℚ → List ℚ) : ℕ → ℕ → IpmState → ℕ × Bool × IpmState
  | 0, _, st => (0, false, st)
  | fuel + 1, it, st =>
      if lerrOf A b c st < tol then (0, true, st)
      else
        let (k, brk, st') := loopAux A b c tol oracle fuel (it + 1)
          (iterBody A b c oracle it st)
        (k + 1, brk, st')

/-- Model of `LinIpm.Solve`: starting point, iteration loop, and the
post-loop check `if it == NmaxIt { err = chk.Err(...) }`.  `nmaxit` is
an `ℤ` because Go's `int(p.V)` can be negative.  Returns the outcome
together with the number of executed iterations.  For `nmaxit ≥ 0` the
final Go value of `it` is `k` after a break and `nmaxit` on exhaustion;
for `nmaxit < 0` the loop never starts and `it` stays `0`. -/
def solveFull (A : List (List ℚ)) (b c : List ℚ) (nmaxit : ℤ) (tol : ℚ)
    (d L0 : List ℚ) (oracle : ℕ → List ℚ → List ℚ) :
    Except String IpmState × ℕ :=
  let st0 := startingPoint A c d L0
  let res := loopAux A b c tol oracle nmaxit.toNat 0 st0
  let itFinal : ℤ := if res.2.1 then (res.1 : ℤ) else (nmaxit.toNat : ℤ)
  (if itFinal = nmaxit then .error ("iterations did not converge")
    else .ok res.2.2, res.1)

/-! ## Helper lemmas -/

/-- The option fold never changes the tolerance component. -/
lemma initConsts_snd (prms : List Param) :
    ∀ acc : ℤ × ℚ, (prms.foldl applyParam acc).2 = acc.2 := by
  induction prms with
  | nil => intro acc; rfl
  | cons p rest ih =>
      intro acc
      simp only [List.foldl_cons, ih]
      unfold applyParam
      by_cases h : p.N = "nmaxit" <;> simp [h]

/-- The option fold yields the most recently supplied `nmaxit`
(truncated to int), or the initial value when none is supplied. -/
lemma initConsts_fst (prms : List Param) :
    ∀ acc : ℤ × ℚ,
      (prms.foldl applyParam acc).1 =
        match lastNmaxit prms with
        | some v => truncQ v
        | none => acc.1 := by
  induction prms with
  | nil => intro acc; rfl
  | cons p rest ih =>
      intro acc
      simp only [List.foldl_cons, ih, lastNmaxit]
      cases hrest : lastNmaxit rest with
      | some v => rfl
      | none =>
          unfold applyParam
          by_cases h : p.N = "nmaxit" <;> simp [h]

/-! ## Claims C5 and C6: what `Init` actually validates and recognises -/

/-- C5, counterexample: with `Nx = len(c) = 0` (and `Nl = 1`) `Init`
does not fail — it returns a fully configured solver with `Nx = 0`.
The Go `Init` has no error return and performs no dimension check, so
the claimed `ConfigError` cannot occur. -/
theorem Init_accepts_empty_c :
    Init [1] [] [] =
      .ok { NmaxIt := 50, Tol := 1 / 100000000, Nx := 0, Nl := 1, Ny := 1 } := by
  rfl

/-- C5, amended: `Init` never fails; any inputs, degenerate dimensions
included, produce a configuration with `Nx = len(c)`, `Nl = len(b)`,
and no `ConfigError` is ever raised. -/
theorem Init_never_fails (b c : List ℚ) (prms : List Param) :
    Init b c prms = .ok (initCfg b c prms) ∧
      (initCfg b c prms).Nx = c.length ∧ (initCfg b c prms).Nl = b.length := by
  exact ⟨rfl, rfl, rfl⟩

/-- C6, counterexample: a supplied `tol` option is ignored; after
`Init` with `tol = 1/2` the tolerance is still the default `1e-8`,
not `1/2`.  The option `switch` in the source recognises only
`"nmaxit"`. -/
theorem Init_ignores_tol :
    (initCfg [1] [1] [{ N := "tol", V := 1 / 2 }]).Tol = 1 / 100000000 ∧
      ¬ (initCfg [1] [1] [{ N := "tol", V := 1 / 2 }]).Tol = 1 / 2 := by
  have h1 : (initCfg [1] [1] [{ N := "tol", V := 1 / 2 }]).Tol = 1 / 100000000 := rfl
  refine ⟨h1, ?_⟩
  rw [h1]
  norm_num

/-- C6, amended: `Init` recognises only the `nmaxit` option — after
`Init`, `NmaxIt` is the most recently supplied `nmaxit` (truncated to
int, default 50 when absent) while `Tol` is always the default `1e-8`;
`tol` is ignored exactly like every other unrecognised option, without
error. -/
theorem Init_recognised_options (b c : List ℚ) (prms : List Param) :
    Init b c prms = .ok (initCfg b c prms) ∧
      (initCfg b c prms).Tol = 1 / 100000000 ∧
      (initCfg b c prms).NmaxIt =
        (match lastNmaxit prms with
          | some v => truncQ v
          | none => 50) := by
  refine ⟨rfl, ?_, ?_⟩
  · exact initConsts_snd prms _
  · exact initConsts_fst prms _

/-! ## Claim C1: the ratio test when no index qualifies -/

/-- C1 describes the spec's intent (`xrmin = ∞`, step 1); the code's
`xrmin`/`srmin` are zero-valued Go named returns, so when no index has
`Mdx[i] > 0` (here `X = [1]`, `Mdx = [-1]`, and symmetrically for `S`)
the ratio test yields `0` and both step lengths come out as
`min(1, 0) = 0` and `min(1, 0.99·0) = 0` — a zero-length step, not the
full step 1 the claim states. -/
theorem calc_min_ratios_no_qualifier_zero_step :
    calc_min_ratios [1] [1] [-1] [-1] = (0, 0) ∧
      min (1 : ℚ) (calc_min_ratios [1] [1] [-1] [-1]).1 = 0 ∧
      min (1 : ℚ) ((99 / 100) * (calc_min_ratios [1] [1] [-1] [-1]).1) = 0 ∧
      ¬ (min (1 : ℚ) (calc_min_ratios [1] [1] [-1] [-1]).1 = 1) := by
  refine ⟨?_, ?_, ?_, ?_⟩
  · rfl
  · norm_num [calc_min_ratios, minRatioAux]
  · norm_num [calc_min_ratios, minRatioAux]
  · norm_num [calc_min_ratios, minRatioAux]

/-! ## Claim C10: a negative `nmaxit` skips the loop and reports success -/

/-- C10: when the configuration supplied a negative `nmaxit`, the loop
condition `it < NmaxIt` is false at once, the post-loop check
`it == NmaxIt` compares `0` with a negative number, and `Solve` returns
success with zero executed iterations — the result does not depend on
the linear-solver oracle at all, and the returned state is the raw
starting point. -/
theorem solve_negative_nmaxit_ok (A : List (List ℚ)) (b c : List ℚ)
    (nmaxit : ℤ) (tol : ℚ) (d L0 : List ℚ)
    (oracle : ℕ → List ℚ → List ℚ) (h : nmaxit < 0) :
    solveFull A b c nmaxit tol d L0 oracle = (.ok (startingPoint A c d L0), 0) := by
  have ht : nmaxit.toNat = 0 := Int.toNat_of_nonpos h.le
  have hne : ¬ ((0 : ℤ) = nmaxit) := by omega
  simp [solveFull, ht, loopAux, hne]

/-- Witness for C10 at `nmaxit = -1` on the one-variable problem
`A = [[1]], b = [1], c = [1]` with the exact dense-solve outputs
`d = [1]`, `L0 = [1]`. -/
theorem solve_negative_nmaxit_ok_witness :
    solveFull [[1]] [1] [1] (-1) (1 / 100000000) [1] [1] (fun _ r => r) =
      (.ok (startingPoint [[1]] [1] [1] [1]), 0) :=
  solve_negative_nmaxit_ok [[1]] [1] [1] (-1) (1 / 100000000) [1] [1]
    (fun _ r => r) (by norm_num)

/-! ## Claim C7: the starting-point shifts -/

/-- The interleaved shift/accumulation loop computes exactly the
shifted vectors, their dot product, and their sums. -/
lemma shiftLoop_eq (dx ds : ℚ) :
    ∀ (X S : List ℚ), X.length = S.length →
      shiftLoop dx ds (X.zip S) =
        (X.map (· + dx), S.map (· + ds),
          dotQ (X.map (· + dx)) (S.map (· + ds)),
          sumQ (X.map (· + dx)), sumQ (S.map (· + ds))) := by
  intro X
  induction X with
  | nil =>
      intro S hS
      have : S = [] := List.eq_nil_of_length_eq_zero hS.symm
      subst this
      rfl
  | cons x xs ih =>
      intro S hS
      cases S with
      | nil => simp at hS
      | cons s ss =>
          have hlen : xs.length = ss.length := by simpa using hS
          have hzip : (x :: xs).zip (s :: ss) = (x, s) :: xs.zip ss := rfl
          rw [hzip, shiftLoop, ih ss hlen]
          simp [dotQ, sumQ]

/-- C7: the heuristic equals the spec's description — first shifts
`δx = max(−1.5·min(X), 0)`, `δs = max(−1.5·min(S), 0)` added to every
entry, then secondary shifts `δx = 0.5·(xᵀs)/Σs`, `δs = 0.5·(xᵀs)/Σx`
with the dot product and the sums taken after the first shift, added to
every entry. -/
theorem heuristicShifts_eq_spec (X S : List ℚ) (h : X.length = S.length) :
    heuristicShifts X S = heuristicShiftsSpec X S := by
  simp only [heuristicShifts, heuristicShiftsSpec, shiftLoop_eq _ _ X S h]

/-- Witness for C7 on `X = [1, -2]`, `S = [3, 4]`. -/
theorem heuristicShifts_eq_spec_witness :
    heuristicShifts [1, -2] [3, 4] = heuristicShiftsSpec [1, -2] [3, 4] :=
  heuristicShifts_eq_spec [1, -2] [3, 4] rfl

/-! ## Claim C3: the convergence decision -/

/-- The `ctx` accumulator of the first residual loop is the dot product
`cᵀ·X`, whatever the `Rx`/`S` inputs are, as long as they are at least
as long as `c`. -/
lemma rxLoop_ctx :
    ∀ (cc r s x : List ℚ), cc.length ≤ r.length → cc.length ≤ s.length →
      cc.length ≤ x.length → (rxLoop (zip4 r s cc x)).2.2.1 = dotQ cc x := by
  intro cc
  induction cc with
  | nil =>
      intro r s x _ _ _
      have h1 : zip4 r s ([] : List ℚ) x = [] := by simp [zip4]
      rw [h1]
      rfl
  | cons c0 ccs ih =>
      intro r s x hr hs hx
      cases r with
      | nil => simp at hr
      | cons r0 rs =>
          cases s with
          | nil => simp at hs
          | cons s0 ss =>
              cases x with
              | nil => simp at hx
              | cons x0 xs =>
                  have hr' : ccs.length ≤ rs.length := by simpa using hr
                  have hs' : ccs.length ≤ ss.length := by simpa using hs
                  have hx' : ccs.length ≤ xs.length := by simpa using hx
                  have hz : zip4 (r0 :: rs) (s0 :: ss) (c0 :: ccs) (x0 :: xs) =
                      (r0, s0, c0, x0) :: zip4 rs ss ccs xs := rfl
                  rw [hz]
                  show c0 * x0 + (rxLoop (zip4 rs ss ccs xs)).2.2.1 =
                    c0 * x0 + dotQ ccs xs
                  rw [ih rs ss xs hr' hs' hx']

/-- The `btl` accumulator of the second residual loop is the dot
product `bᵀ·L`. -/
lemma rlLoop_btl :
    ∀ (bb r l : List ℚ), bb.length ≤ r.length → bb.length ≤ l.length →
      (rlLoop (zip3 r bb l)).2 = dotQ bb l := by
  intro bb
  induction bb with
  | nil =>
      intro r l _ _
      have h1 : zip3 r ([] : List ℚ) l = [] := by simp [zip3]
      rw [h1]
      rfl
  | cons b0 bs ih =>
      intro r l hr hl
      cases r with
      | nil => simp at hr
      | cons r0 rs =>
          cases l with
          | nil => simp at hl
          | cons l0 ls =>
              have hr' : bs.length ≤ rs.length := by simpa using hr
              have hl' : bs.length ≤ ls.length := by simpa using hl
              have hz : zip3 (r0 :: rs) (b0 :: bs) (l0 :: ls) =
                  (r0, b0, l0) :: zip3 rs bs ls := rfl
              rw [hz]
              show b0 * l0 + (rlLoop (zip3 rs bs ls)).2 = b0 * l0 + dotQ bs ls
              rw [ih rs ls hr' hl']

/-- The convergence metric of line 193 in terms of the objective
values: `lerr = |cᵀX − bᵀL| / (1 + |cᵀX|)`. -/
lemma lerrOf_eq (A : List (List ℚ)) (b c : List ℚ) (st : IpmState)
    (hX : c.length ≤ st.X.length) (hS : c.length ≤ st.S.length)
    (hA : A.length = b.length) (hL : b.length ≤ st.L.length) :
    lerrOf A b c st =
      |dotQ c st.X - dotQ b st.L| / (1 + |dotQ c st.X|) := by
  have hrx : c.length ≤ (matTrVec A st.L c.length).length := by
    simp [matTrVec]
  have hrl : b.length ≤ (matVec A st.X).length := by
    simp [matVec, hA]
  have hctx := rxLoop_ctx c (matTrVec A st.L c.length) st.S st.X hrx hS hX
  have hbtl := rlLoop_btl b (matVec A st.X) st.L hrl hL
  simp only [lerrOf, residualStage]
  rcases hx : rxLoop (zip4 (matTrVec A st.L c.length) st.S c st.X) with ⟨rx, rs, ctx, macc⟩
  rcases hb : rlLoop (zip3 (matVec A st.X) b st.L) with ⟨rl, btl⟩
  rw [hx] at hctx
  rw [hb] at hbtl
  simp only [hx, hb]
  simp only at hctx hbtl
  rw [hctx, hbtl]

/-- C3: at the top of every iteration (any iterate `st`, any remaining
fuel), the loop breaks immediately — declaring convergence, leaving the
state untouched, raising no error — exactly when
`|cᵀX − bᵀL| / (1 + |cᵀX|) < tol`; no feasibility-residual norm enters
the decision. -/
theorem loop_breaks_iff_gap_small (A : List (List ℚ)) (b c : List ℚ)
    (tol : ℚ) (oracle : ℕ → List ℚ → List ℚ) (fuel it : ℕ) (st : IpmState)
    (hf : 0 < fuel) (hX : c.length ≤ st.X.length) (hS : c.length ≤ st.S.length)
    (hA : A.length = b.length) (hL : b.length ≤ st.L.length) :
    loopAux A b c tol oracle fuel it st = (0, true, st) ↔
      |dotQ c st.X - dotQ b st.L| / (1 + |dotQ c st.X|) < tol := by
  obtain ⟨f, rfl⟩ : ∃ f, fuel = f + 1 := ⟨fuel - 1, by omega⟩
  rw [← lerrOf_eq A b c st hX hS hA hL]
  unfold loopAux
  by_cases h : lerrOf A b c st < tol
  · simp [h]
  · rw [if_neg h]
    rcases hrec : loopAux A b c tol oracle f (it + 1) (iterBody A b c oracle it st)
      with ⟨k, brk, st2⟩
    simp only [hrec]
    constructor
    · intro hcontra
      have h1 : k + 1 = 0 := congrArg Prod.fst hcontra
      omega
    · intro hcontra
      exact absurd hcontra h

/-- Witness for C3 on the feasible point `X = [1], L = [1], S = [1]` of
the problem `A = [[1]], b = [1], c = [1]` with `tol = 1`: the gap
metric is `0 < 1`, and the loop indeed breaks at once. -/
theorem loop_breaks_iff_gap_small_witness :
    loopAux [[1]] [1] [1] 1 (fun _ r => r) 1 0 ⟨[1], [1], [1]⟩ =
      (0, true, ⟨[1], [1], [1]⟩) :=
  (loop_breaks_iff_gap_small [[1]] [1] [1] 1 (fun _ r => r) 1 0
    ⟨[1], [1], [1]⟩ (by norm_num) (by norm_num) (by norm_num) rfl
    (by norm_num)).mpr (by norm_num [dotQ])

/-! ## Claim C4: exhaustion of the iteration budget -/

/-- Shifting the start of the iterate sequence by one executed body. -/
lemma iterSeqFrom_shift (A : List (List ℚ)) (b c : List ℚ)
    (oracle : ℕ → List ℚ → List ℚ) (it0 : ℕ) (st : IpmState) :
    ∀ k, iterSeqFrom A b c oracle (it0 + 1) (iterBody A b c oracle it0 st) k =
      iterSeqFrom A b c oracle it0 st (k + 1) := by
  intro k
  induction k with
  | zero => rfl
  | succ n ih =>
      show iterBody A b c oracle (it0 + 1 + n) _ = iterBody A b c oracle (it0 + (n + 1)) _
      rw [ih]
      congr 1
      omega

/-- If the convergence test fails at every iterate the loop can visit,
the loop consumes all its fuel, never breaks, and ends at the
`fuel`-th iterate. -/
lemma loopAux_exhaust (A : List (List ℚ)) (b c : List ℚ) (tol : ℚ)
    (oracle : ℕ → List ℚ → List ℚ) :
    ∀ (fuel it0 : ℕ) (st : IpmState),
      (∀ k < fuel, ¬ lerrOf A b c (iterSeqFrom A b c oracle it0 st k) < tol) →
      loopAux A b c tol oracle fuel it0 st =
        (fuel, false, iterSeqFrom A b c oracle it0 st fuel) := by
  intro fuel
  induction fuel with
  | zero => intro it0 st _; rfl
  | succ f ih =>
      intro it0 st hnc
      have h0 : ¬ lerrOf A b c st < tol := hnc 0 (by omega)
      have hrec := ih (it0 + 1) (iterBody A b c oracle it0 st) (by
        intro k hk
        rw [iterSeqFrom_shift]
        exact hnc (k + 1) (by omega))
      unfold loopAux
      rw [if_neg h0, hrec, iterSeqFrom_shift]

/-- C4: if all `NmaxIt` iterations run with the convergence test
failing at each of them, `Solve` returns the `ConvergenceError`
"iterations did not converge" after exactly `NmaxIt` executed
iterations; with `nmaxit = 0` the hypothesis is vacuous, so the error
is raised immediately with no Newton iteration performed. -/
theorem solve_exhausted_error (A : List (List ℚ)) (b c : List ℚ)
    (nmaxit : ℤ) (tol : ℚ) (d L0 : List ℚ)
    (oracle : ℕ → List ℚ → List ℚ) (h0 : 0 ≤ nmaxit)
    (hnc : ∀ k < nmaxit.toNat,
      ¬ lerrOf A b c
          (iterSeqFrom A b c oracle 0 (startingPoint A c d L0) k) < tol) :
    solveFull A b c nmaxit tol d L0 oracle =
      (.error ("iterations did not converge"), nmaxit.toNat) := by
  have hloop := loopAux_exhaust A b c tol oracle nmaxit.toNat 0
    (startingPoint A c d L0) hnc
  have hcast : ((nmaxit.toNat : ℤ)) = nmaxit := Int.toNat_of_nonneg h0
  simp [solveFull, hloop, hcast]

/-- Witness for C4 at `nmaxit = 0` (vacuous non-convergence hypothesis)
on the one-variable problem. -/
theorem solve_exhausted_error_witness :
    solveFull [[1]] [1] [1] 0 (1 / 100000000) [1] [1] (fun _ r => r) =
      (.error ("iterations did not converge"), 0) :=
  solve_exhausted_error [[1]] [1] [1] 0 (1 / 100000000) [1] [1]
    (fun _ r => r) (by norm_num) (by intro k hk; simp at hk)

/-! ## Claim C8: the corrector residual update -/

/-- Entry `i` of the corrected complementarity residual. -/
lemma correctedRs_getD :
    ∀ (rs mdx mds : List ℚ) (sg mu : ℚ) (i : ℕ),
      i < rs.length → i < mdx.length → i < mds.length →
      (correctedRs rs mdx mds sg mu).getD i 0 =
        rs.getD i 0 + mdx.getD i 0 * mds.getD i 0 - sg * mu := by
  intro rs
  induction rs with
  | nil => intro mdx mds sg mu i hi _ _; simp at hi
  | cons r rrest ih =>
      intro mdx mds sg mu i hi hdx hds
      cases mdx with
      | nil => simp at hdx
      | cons m1 mdxr =>
          cases mds with
          | nil => simp at hds
          | cons m2 mdsr =>
              cases i with
              | zero => rfl
              | succ n =>
                  have h1 : n < rrest.length := by simpa using hi
                  have h2 : n < mdxr.length := by simpa using hdx
                  have h3 : n < mdsr.length := by simpa using hds
                  show (correctedRs rrest mdxr mdsr sg mu).getD n 0 =
                    rrest.getD n 0 + mdxr.getD n 0 * mdsr.getD n 0 - sg * mu
                  exact ih mdxr mdsr sg mu n h1 h2 h3

/-- The `μaff` accumulation loop as an indexed sum. -/
lemma muAffSum_eq (ap ad : ℚ) :
    ∀ (n : ℕ) (X dxl S dsl : List ℚ), X.length = n → dxl.length = n →
      S.length = n → dsl.length = n →
      muAffSum ap ad (zip4 X dxl S dsl) =
        ∑ i in Finset.range n,
          (X.getD i 0 - ap * dxl.getD i 0) * (S.getD i 0 - ad * dsl.getD i 0) := by
  intro n
  induction n with
  | zero =>
      intro X dxl S dsl hX _ _ _
      have : X = [] := List.eq_nil_of_length_eq_zero hX
      subst this
      simp [zip4, muAffSum]
  | succ m ih =>
      intro X dxl S dsl hX hdx hS hds
      cases X with
      | nil => simp at hX
      | cons x xs =>
          cases dxl with
          | nil => simp at hdx
          | cons dx dxs =>
              cases S with
              | nil => simp at hS
              | cons s ss =>
                  cases dsl with
                  | nil => simp at hds
                  | cons ds dss =>
                      have hz : zip4 (x :: xs) (dx :: dxs) (s :: ss) (ds :: dss) =
                          (x, dx, s, ds) :: zip4 xs dxs ss dss := rfl
                      rw [hz]
                      show (x - ap * dx) * (s - ad * ds) +
                          muAffSum ap ad (zip4 xs dxs ss dss) = _
                      rw [ih xs dxs ss dss (by simpa using hX) (by simpa using hdx)
                        (by simpa using hS) (by simpa using hds)]
                      rw [Finset.sum_range_succ']
                      simp [List.getD_cons_succ, List.getD_cons_zero, add_comm]

/-- C8: between the predictor solve and the corrected solve, the
corrector stage leaves `Rx` and `Rl` untouched and increments each
`Rs[i]` by `Mdx[i]·Mds[i] − σ·μ`, where `σ = (μaff/μ)³` and `μaff` is
the averaged predicted complementarity
`(Σₖ (X[k] − αpa·Mdx[k])·(S[k] − αda·Mds[k])) / Nx` with the affine
step lengths `αpa = min(1, xrmin)`, `αda = min(1, srmin)`. -/
theorem corrector_touches_only_Rs (rx rl rs X S mdx mds : List ℚ) (mu : ℚ)
    (nx : ℕ) (hrs : rs.length = nx) (hX : X.length = nx) (hS : S.length = nx)
    (hdx : mdx.length = nx) (hds : mds.length = nx) (i : ℕ) (hi : i < nx) :
    (correctorStage rx rl rs X S mdx mds mu nx).1 = rx ∧
      (correctorStage rx rl rs X S mdx mds mu nx).2.1 = rl ∧
      (correctorStage rx rl rs X S mdx mds mu nx).2.2.getD i 0 =
        rs.getD i 0 + mdx.getD i 0 * mds.getD i 0 -
          ((((∑ k in Finset.range nx,
              (X.getD k 0 - min 1 (calc_min_ratios X S mdx mds).1 * mdx.getD k 0) *
                (S.getD k 0 - min 1 (calc_min_ratios X S mdx mds).2 * mds.getD k 0)) /
              (nx : ℚ)) / mu) ^ (3 : ℕ)) * mu := by
  refine ⟨rfl, rfl, ?_⟩
  have hstage : (correctorStage rx rl rs X S mdx mds mu nx).2.2 =
      correctedRs rs mdx mds (sigmaOf X S mdx mds mu nx) mu := rfl
  rw [hstage, correctedRs_getD rs mdx mds _ mu i (by omega) (by omega) (by omega)]
  have hsig : sigmaOf X S mdx mds mu nx =
      (((∑ k in Finset.range nx,
        (X.getD k 0 - min 1 (calc_min_ratios X S mdx mds).1 * mdx.getD k 0) *
          (S.getD k 0 - min 1 (calc_min_ratios X S mdx mds).2 * mds.getD k 0)) /
        (nx : ℚ)) / mu) ^ (3 : ℕ) := by
    simp only [sigmaOf]
    rw [muAffSum_eq _ _ nx X mdx S mds hX hdx hS hds]
  rw [hsig]

/-- Witness for C8 with `nx = 1` at index 0. -/
theorem corrector_touches_only_Rs_witness :
    (correctorStage [5] [6] [7] [1] [1] [1] [1] 1 1).1 = [5] ∧
      (correctorStage [5] [6] [7] [1] [1] [1] [1] 1 1).2.1 = [6] ∧
      (correctorStage [5] [6] [7] [1] [1] [1] [1] 1 1).2.2.getD 0 0 =
        List.getD [7] 0 0 + List.getD [1] 0 0 * List.getD [1] 0 0 -
          ((((∑ k in Finset.range 1,
              (List.getD [1] k 0 -
                  min 1 (calc_min_ratios [1] [1] [1] [1]).1 * List.getD [1] k 0) *
                (List.getD [1] k 0 -
                  min 1 (calc_min_ratios [1] [1] [1] [1]).2 * List.getD [1] k 0)) /
              ((1 : ℕ) : ℚ)) / 1) ^ (3 : ℕ)) * 1 :=
  corrector_touches_only_Rs [5] [6] [7] [1] [1] [1] [1] 1 1 rfl rfl rfl rfl rfl
    0 (by omega)

/-! ## Claim C9: the final update -/

/-- Entry `i` of a pointwise `zipWith` combination. -/
lemma getD_zipWith (f : ℚ → ℚ → ℚ) :
    ∀ (as bs : List ℚ) (i : ℕ), i < as.length → i < bs.length →
      (List.zipWith f as bs).getD i 0 = f (as.getD i 0) (bs.getD i 0) := by
  intro as
  induction as with
  | nil => intro bs i hi _; simp at hi
  | cons a arest ih =>
      intro bs i hi hbs
      cases bs with
      | nil => simp at hbs
      | cons b brest =>
          cases i with
          | zero => rfl
          | succ n =>
              exact ih brest n (by simpa using hi) (by simpa using hbs)

/-- C9: the final update subtracts `αpa·Mdx[i]` from `X[i]` and
`αda·Mds[j]` from `S[j]` with `αpa = min(1, 0.99·xrmin)`,
`αda = min(1, 0.99·srmin)` from the ratio test on the supplied
(corrected) direction, and moves the dual multipliers with the dual
step length: `L[k] -= αda·Mdl[k]`, not `αpa`. -/
theorem final_update_entries (X S L mdx mdl mds : List ℚ)
    (hdx : mdx.length = X.length) (hds : mds.length = S.length)
    (hdl : mdl.length = L.length) (i j k : ℕ)
    (hi : i < X.length) (hj : j < S.length) (hk : k < L.length) :
    (finalStep X S L mdx mdl mds).X.getD i 0 =
        X.getD i 0 -
          min 1 ((99 / 100 : ℚ) * (calc_min_ratios X S mdx mds).1) * mdx.getD i 0 ∧
      (finalStep X S L mdx mdl mds).S.getD j 0 =
        S.getD j 0 -
          min 1 ((99 / 100 : ℚ) * (calc_min_ratios X S mdx mds).2) * mds.getD j 0 ∧
      (finalStep X S L mdx mdl mds).L.getD k 0 =
        L.getD k 0 -
          min 1 ((99 / 100 : ℚ) * (calc_min_ratios X S mdx mds).2) * mdl.getD k 0 := by
  refine ⟨?_, ?_, ?_⟩
  · exact getD_zipWith _ X mdx i hi (by omega)
  · exact getD_zipWith _ S mds j hj (by omega)
  · exact getD_zipWith _ L mdl k hk (by omega)

/-- Witness for C9 on one-entry vectors at indices 0. -/
theorem final_update_entries_witness :
    (finalStep [4] [5] [6] [1] [1] [1]).X.getD 0 0 =
        List.getD [4] 0 0 -
          min 1 ((99 / 100 : ℚ) * (calc_min_ratios [4] [5] [1] [1]).1) *
            List.getD [1] 0 0 ∧
      (finalStep [4] [5] [6] [1] [1] [1]).S.getD 0 0 =
        List.getD [5] 0 0 -
          min 1 ((99 / 100 : ℚ) * (calc_min_ratios [4] [5] [1] [1]).2) *
            List.getD [1] 0 0 ∧
      (finalStep [4] [5] [6] [1] [1] [1]).L.getD 0 0 =
        List.getD [6] 0 0 -
          min 1 ((99 / 100 : ℚ) * (calc_min_ratios [4] [5] [1] [1]).2) *
            List.getD [1] 0 0 :=
  final_update_entries [4] [5] [6] [1] [1] [1] rfl rfl rfl 0 0 0
    (by decide) (by decide) (by decide)

/-! ## Claim C2: strict positivity -/

/-- The running minimum of the ratio loop can only decrease. -/
lemma minRatioAux_le_acc :
    ∀ (l : List (ℚ × ℚ)) (r : ℚ), minRatioAux l (some r) ≤ r := by
  intro l
  induction l with
  | nil => intro r; exact le_refl r
  | cons p rest ih =>
      intro r
      rcases p with ⟨x, m⟩
      by_cases hm : 0 < m
      · have heq : minRatioAux ((x, m) :: rest) (some r) =
            minRatioAux rest (some (min r (x / m))) := by
          simp [minRatioAux, hm]
        rw [heq]
        exact le_trans (ih (min r (x / m))) (min_le_left _ _)
      · have heq : minRatioAux ((x, m) :: rest) (some r) =
            minRatioAux rest (some r) := by
          simp [minRatioAux, hm]
        rw [heq]
        exact ih r

/-- When every first component is positive, the ratio loop result is
nonnegative (in particular the zero-valued "no qualifier" outcome). -/
lemma minRatioAux_nonneg :
    ∀ (l : List (ℚ × ℚ)), (∀ p ∈ l, 0 < p.1) →
      ∀ acc : Option ℚ, (∀ r, acc = some r → 0 ≤ r) →
      0 ≤ minRatioAux l acc := by
  intro l
  induction l with
  | nil =>
      intro _ acc hacc
      cases acc with
      | none => exact le_refl 0
      | some r => exact hacc r rfl
  | cons p rest ih =>
      intro hl acc hacc
      rcases p with ⟨x, m⟩
      have hx : 0 < x := hl (x, m) (List.mem_cons_self _ _)
      have hrest : ∀ q ∈ rest, 0 < q.1 := fun q hq => hl q (List.mem_cons_of_mem _ hq)
      by_cases hm : 0 < m
      · cases acc with
        | none =>
            have heq : minRatioAux ((x, m) :: rest) none =
                minRatioAux rest (some (x / m)) := by
              simp [minRatioAux, hm]
            rw [heq]
            refine ih hrest _ (fun r hr => ?_)
            rw [← Option.some.inj hr]
            exact le_of_lt (div_pos hx hm)
        | some r0 =>
            have heq : minRatioAux ((x, m) :: rest) (some r0) =
                minRatioAux rest (some (min r0 (x / m))) := by
              simp [minRatioAux, hm]
            rw [heq]
            refine ih hrest _ (fun r hr => ?_)
            rw [← Option.some.inj hr]
            exact le_min (hacc r0 rfl) (le_of_lt (div_pos hx hm))
      · have heq : minRatioAux ((x, m) :: rest) acc = minRatioAux rest acc := by
          cases acc <;> simp [minRatioAux, hm]
        rw [heq]
        exact ih hrest acc hacc

/-- The ratio loop result is at most each qualifying candidate ratio. -/
lemma minRatioAux_le :
    ∀ (l : List (ℚ × ℚ)) (acc : Option ℚ) (x m : ℚ), (x, m) ∈ l → 0 < m →
      minRatioAux l acc ≤ x / m := by
  intro l
  induction l with
  | nil => intro acc x m hmem _; simp at hmem
  | cons p rest ih =>
      intro acc x m hmem hm
      rcases p with ⟨px, pm⟩
      rcases List.mem_cons.mp hmem with heq | htail
      · injection heq with h1 h2
        subst h1
        subst h2
        cases acc with
        | none =>
            have heq2 : minRatioAux ((x, m) :: rest) none =
                minRatioAux rest (some (x / m)) := by
              simp [minRatioAux, hm]
            rw [heq2]
            exact minRatioAux_le_acc rest (x / m)
        | some r0 =>
            have heq2 : minRatioAux ((x, m) :: rest) (some r0) =
                minRatioAux rest (some (min r0 (x / m))) := by
              simp [minRatioAux, hm]
            rw [heq2]
            exact le_trans (minRatioAux_le_acc rest _) (min_le_right _ _)
      · by_cases hpm : 0 < pm
        · cases acc with
          | none =>
              have heq2 : minRatioAux ((px, pm) :: rest) none =
                  minRatioAux rest (some (px / pm)) := by
                simp [minRatioAux, hpm]
              rw [heq2]
              exact ih _ x m htail hm
          | some r0 =>
              have heq2 : minRatioAux ((px, pm) :: rest) (some r0) =
                  minRatioAux rest (some (min r0 (px / pm))) := by
                simp [minRatioAux, hpm]
              rw [heq2]
              exact ih _ x m htail hm
        · have heq2 : minRatioAux ((px, pm) :: rest) acc = minRatioAux rest acc := by
            cases acc <;> simp [minRatioAux, hpm]
          rw [heq2]
          exact ih acc x m htail hm

/-- A damped update `x − α·m` keeps a positive vector positive when the
step `α` is nonnegative and, on every qualifying pair, at most
`0.99·x/m`. -/
lemma step_pos (al : ℚ) :
    ∀ (X mdx : List ℚ), 0 ≤ al → (∀ x ∈ X, 0 < x) →
      (∀ a m : ℚ, (a, m) ∈ X.zip mdx → 0 < m → al * m ≤ (99 / 100) * a) →
      ∀ y ∈ List.zipWith (fun x m => x - al * m) X mdx, 0 < y := by
  intro X
  induction X with
  | nil => intro mdx _ _ _ y hy; simp at hy
  | cons x xs ih =>
      intro mdx hal hX hcond y hy
      cases mdx with
      | nil => simp at hy
      | cons m ms =>
          rw [List.zipWith_cons_cons] at hy
          rcases List.mem_cons.mp hy with rfl | htail
          · have hx : 0 < x := hX x (List.mem_cons_self _ _)
            by_cases hm : 0 < m
            · have hmem : ((x, m) : ℚ × ℚ) ∈ (x :: xs).zip (m :: ms) := by
                rw [List.zip_cons_cons]
                exact List.mem_cons_self _ _
              have h1 : al * m ≤ (99 / 100) * x := hcond x m hmem hm
              linarith
            · have h3 : al * m ≤ 0 :=
                mul_nonpos_of_nonneg_of_nonpos hal (le_of_not_lt hm)
              linarith
          · refine ih ms hal (fun q hq => hX q (List.mem_cons_of_mem _ hq))
              (fun a mm hmem hmm => ?_) y htail
            refine hcond a mm ?_ hmm
            rw [List.zip_cons_cons]
            exact List.mem_cons_of_mem _ hmem

/-- The final ratio test plus update keeps `X` and `S` entrywise
positive, whatever direction the linear solver returned. -/
lemma finalStep_pos (X S L mdx mdl mds : List ℚ)
    (hX : ∀ x ∈ X, 0 < x) (hS : ∀ s ∈ S, 0 < s) :
    (∀ y ∈ (finalStep X S L mdx mdl mds).X, 0 < y) ∧
      (∀ z ∈ (finalStep X S L mdx mdl mds).S, 0 < z) := by
  have hxr : 0 ≤ (calc_min_ratios X S mdx mds).1 := by
    refine minRatioAux_nonneg (X.zip mdx) (fun p hp => hX p.1 (List.of_mem_zip hp).1)
      none (fun r hr => ?_)
    cases hr
  have hsr : 0 ≤ (calc_min_ratios X S mdx mds).2 := by
    refine minRatioAux_nonneg (S.zip mds) (fun p hp => hS p.1 (List.of_mem_zip hp).1)
      none (fun r hr => ?_)
    cases hr
  have hap : 0 ≤ min 1 ((99 / 100 : ℚ) * (calc_min_ratios X S mdx mds).1) :=
    le_min (by norm_num) (mul_nonneg (by norm_num) hxr)
  have had : 0 ≤ min 1 ((99 / 100 : ℚ) * (calc_min_ratios X S mdx mds).2) :=
    le_min (by norm_num) (mul_nonneg (by norm_num) hsr)
  constructor
  · have main := step_pos (min 1 ((99 / 100 : ℚ) * (calc_min_ratios X S mdx mds).1))
      X mdx hap hX (fun a m hmem hm => ?_)
    · intro y hy
      exact main y hy
    · have h2 : (calc_min_ratios X S mdx mds).1 ≤ a / m :=
        minRatioAux_le (X.zip mdx) none a m hmem hm
      have h3 : min 1 ((99 / 100 : ℚ) * (calc_min_ratios X S mdx mds).1) ≤
          (99 / 100) * (a / m) :=
        le_trans (min_le_right _ _) (mul_le_mul_of_nonneg_left h2 (by norm_num))
      calc min 1 ((99 / 100 : ℚ) * (calc_min_ratios X S mdx mds).1) * m
          ≤ ((99 / 100) * (a / m)) * m :=
            mul_le_mul_of_nonneg_right h3 (le_of_lt hm)
        _ = (99 / 100) * a := by
            rw [mul_assoc, div_mul_cancel₀ _ (ne_of_gt hm)]
  · have main := step_pos (min 1 ((99 / 100 : ℚ) * (calc_min_ratios X S mdx mds).2))
      S mds had hS (fun a m hmem hm => ?_)
    · intro z hz
      exact main z hz
    · have h2 : (calc_min_ratios X S mdx mds).2 ≤ a / m :=
        minRatioAux_le (S.zip mds) none a m hmem hm
      have h3 : min 1 ((99 / 100 : ℚ) * (calc_min_ratios X S mdx mds).2) ≤
          (99 / 100) * (a / m) :=
        le_trans (min_le_right _ _) (mul_le_mul_of_nonneg_left h2 (by norm_num))
      calc min 1 ((99 / 100 : ℚ) * (calc_min_ratios X S mdx mds).2) * m
          ≤ ((99 / 100) * (a / m)) * m :=
            mul_le_mul_of_nonneg_right h3 (le_of_lt hm)
        _ = (99 / 100) * a := by
            rw [mul_assoc, div_mul_cancel₀ _ (ne_of_gt hm)]

/-- C2, counterexample: on the problem `A = [[1]], b = [0], c = [1]`
(with the exact dense-solve outputs `d = [0]`, certified by
`(A·Aᵀ)·d = b`, and `L0 = [1]`, certified by `(A·Aᵀ)·L0 = A·c = [1]`)
the starting point has `X = [0]`: strict positivity already fails at
the starting point, so it does not hold for every problem.  (In Go the
secondary shift is `0.5·0/0 = NaN` here; under the exact-arithmetic
idealisation it is `0` — either way `X[0] > 0 ` is false.) -/
theorem startingPoint_not_positive :
    matVec [[(1 : ℚ)]] [0] = [0] ∧ matVec [[(1 : ℚ)]] [1] = [1] ∧
      (startingPoint [[(1 : ℚ)]] [1] [0] [1]).X = [0] ∧
      ¬ (0 < (startingPoint [[(1 : ℚ)]] [1] [0] [1]).X.getD 0 0) := by
  have h1 : matVec [[(1 : ℚ)]] [0] = [0] := by norm_num [matVec, dotQ]
  have h2 : matVec [[(1 : ℚ)]] [1] = [1] := by norm_num [matVec, dotQ]
  have h3 : (startingPoint [[(1 : ℚ)]] [1] [0] [1]).X = [0] := by
    norm_num [startingPoint, heuristicShifts, shiftLoop, vecMin, matTrVec, colQ,
      dotQ, min_def, max_def]
  refine ⟨h1, h2, h3, ?_⟩
  rw [h3]
  norm_num

/-- C2, amended: every update step of `Solve` preserves strict
positivity — if `X[i] > 0` and `S[i] > 0` for all `i` at the top of an
iteration then the same holds after the full predictor-corrector
iteration, for every problem and every direction the linear-solver
oracle may return (the 0.99 safety factor makes the step stop strictly
short of the boundary).  The starting point, however, need not be
strictly positive (see the counterexample). -/
theorem iteration_preserves_positivity (A : List (List ℚ)) (b c : List ℚ)
    (oracle : ℕ → List ℚ → List ℚ) (it : ℕ) (st : IpmState)
    (hX : ∀ x ∈ st.X, 0 < x) (hS : ∀ s ∈ st.S, 0 < s) (y z : ℚ)
    (hy : y ∈ (iterBody A b c oracle it st).X)
    (hz : z ∈ (iterBody A b c oracle it st).S) :
    0 < y ∧ 0 < z := by
  rcases hres : residualStage A b c st with ⟨⟨rx, rl, rs⟩, ctx, btl, mu⟩
  obtain ⟨m1, m2, m3, hiter⟩ : ∃ m1 m2 m3,
      iterBody A b c oracle it st = finalStep st.X st.S st.L m1 m2 m3 := by
    simp only [iterBody, hres, correctorStage]
    exact ⟨_, _, _, rfl⟩
  rw [hiter] at hy hz
  obtain ⟨hXpos, hSpos⟩ := finalStep_pos st.X st.S st.L m1 m2 m3 hX hS
  exact ⟨hXpos y hy, hSpos z hz⟩

/-- Witness for C2 (amended) on the one-variable problem with the
identity oracle: the updated entries `X[0] = S[0] = 1/100` stay
positive. -/
theorem iteration_preserves_positivity_witness :
    0 < (iterBody [[1]] [1] [1] (fun _ r => r) 0 ⟨[1], [1], [1]⟩).X.getD 0 0 ∧
      0 < (iterBody [[1]] [1] [1] (fun _ r => r) 0 ⟨[1], [1], [1]⟩).S.getD 0 0 := by
  have hres : iterBody [[1]] [1] [1] (fun _ r => r) 0 ⟨[1], [1], [1]⟩ =
      ⟨[1 / 100], [1], [1 / 100]⟩ := by
    norm_num [iterBody, residualStage, rxLoop, rlLoop, zip3, zip4, matVec, matTrVec,
      colQ, dotQ, correctorStage, correctedRs, sigmaOf, muAffSum, calc_min_ratios,
      minRatioAux, finalStep, min_def, max_def]
  refine iteration_preserves_positivity [[1]] [1] [1] (fun _ r => r) 0
    ⟨[1], [1], [1]⟩ (by decide) (by decide) _ _ ?_ ?_
  · rw [hres]
    simp
  · rw [hres]
    simp
